import Mathlib

/-!
The tokenizer of `tokenizer.c`, embedded in Lean

Conventions of the embedding.

* A `char` is a natural number (the value of the byte); a C string is the list of
  the bytes that stand before its terminating zero byte, so `strlen` is
  `List.length` and the byte read at offset `length` is the terminator `0`.
* A pointer into a string is the offset from the start of that string.
* Every function that touches memory returns an `Outcome`.
* Blocks.  `malloc(n)` gives the block of glibc on a 64-bit platform, the platform the
  program runs on: `malloc_usable_size n` bytes lie between its start and the size
  field of the next block.  Every write into a block is checked against that size; a
  write that goes beyond it is `Outcome.out_of_bounds`.  A string the embedding holds
  (a token, a decoded string, the strings of a tokenizer) therefore lies, terminator
  included, inside its block.
* Reads behind a terminator.  A read at an offset beyond the terminator of a string
  fetches bytes the program has not put there.  Where the string a function returns is
  the same whatever these bytes are, the embedding goes on; where it is not, the answer
  is `Outcome.out_of_bounds`.
* `char` is signed, so that the `-1` of `get_escape_sequence` compares equal to the
  constant `-1`; that function returns an integer, every other byte is its unsigned
  value.
* The `while` loops run on fuel; `Outcome.out_of_fuel` is the answer of a loop that
  was cut short.
-/

namespace Tokenizer

/-- Result of running a piece of the program. -/
inductive Outcome (α : Type) where
  | ok (value : α) : Outcome α
  | out_of_bounds : Outcome α
  | out_of_fuel : Outcome α
deriving DecidableEq, Repr

/-- Sequencing of two runs: the second one starts from the value of the first. -/
def Outcome.bind {α β : Type} (x : Outcome α) (f : α → Outcome β) : Outcome β :=
  match x with
  | .ok value => f value
  | .out_of_bounds => .out_of_bounds
  | .out_of_fuel => .out_of_fuel

/-- The number of bytes of the block `malloc(n)` returns that can be written before the
size field of the next block is reached (glibc, 64-bit): 24 for a request of up to 24
bytes, and beyond that the next number of the form `16 * k + 8`. -/
def malloc_usable_size (n : Nat) : Nat :=
  if n ≤ 24 then 24 else (n + 7) / 16 * 16 + 8

/-- Whether a write of `bytes` bytes from the start of the block `malloc(size)` stays
inside the block. -/
def fits (bytes size : Nat) : Bool :=
  decide (bytes ≤ malloc_usable_size size)

/-- The table `byte_map`: the characters `0` to `9` and `a` to `f`. -/
def byte_map : List Nat :=
  [48, 49, 50, 51, 52, 53, 54, 55, 56, 57, 97, 98, 99, 100, 101, 102]

/-- The length of `byte_map` (`sizeof(byte_map)`). -/
def byte_map_length : Nat := byte_map.length

/-- Converts a nibble to its hex character; the character `*` (42) for any other value. -/
def nibble_to_char (nibble : Nat) : Nat :=
  if nibble < byte_map_length then byte_map.getD nibble 42 else 42

/-- An entry of the escape table: the character expected after the backslash and
the byte it stands for. -/
structure escape_sequence_t where
  expected : Nat
  actual : Nat
deriving DecidableEq, Repr

/-- The table `escape_sequences`: t, n, v, b, r, f, a, double quote, backslash. -/
def escape_sequences : List escape_sequence_t :=
  [⟨116, 9⟩, ⟨110, 10⟩, ⟨118, 11⟩,
   ⟨98, 8⟩, ⟨114, 13⟩, ⟨102, 12⟩,
   ⟨97, 7⟩, ⟨34, 34⟩, ⟨92, 92⟩]

/-- The loop of `get_escape_sequence` over the remaining entries of the table. -/
def get_escape_sequence_loop : List escape_sequence_t → Nat → Int
  | [], _ => -1
  | esc_sequence :: rest, value =>
    if esc_sequence.expected = value then (esc_sequence.actual : Int)
    else get_escape_sequence_loop rest value

/-- The byte an escape stands for, given the character after the backslash; `-1` when
the character is not in the table. -/
def get_escape_sequence (value : Nat) : Int :=
  get_escape_sequence_loop escape_sequences value

/-- Offset of the first occurrence of `c` in the string (`strchr`), `none` for `NULL`.
It is only called with the non-zero bytes of the escape table. -/
def strchr : List Nat → Nat → Option Nat
  | [], _ => none
  | b :: rest, c => if b = c then some 0 else (strchr rest c).map (· + 1)

/-- The loop of `find_escape_character` over the remaining entries of the table. -/
def find_escape_character_loop : List escape_sequence_t → List Nat → Option Nat
  | [], _ => none
  | esc_sequence :: rest, string =>
    match strchr string esc_sequence.actual with
    | some tmp => some tmp
    | none => find_escape_character_loop rest string

/-- Offset of an escape character in the string: the first occurrence of the first
table entry that occurs at all; `none` for `NULL`. -/
def find_escape_character (string : List Nat) : Option Nat :=
  find_escape_character_loop escape_sequences string

/-- The tokenizer structure: the delimiters, the stream and the stream index, kept as
the offset of the pointer `stream_index` from `stream`. -/
structure tokenizer_t where
  delimiters : List Nat
  stream : List Nat
  stream_index : Nat
deriving DecidableEq, Repr

/-- The loop of `is_delimiter` over the bytes `i < strlen(tk->delimiters)`: it ends at
the terminator, which is never compared. -/
def is_delimiter_loop : List Nat → Nat → Bool
  | [], _ => false
  | separator :: rest, c =>
    if separator = 0 then false
    else if c = separator then true
    else is_delimiter_loop rest c

/-- Checks if a given character is a delimiter, given the tokenizer. -/
def is_delimiter (tk : tokenizer_t) (c : Nat) : Bool :=
  is_delimiter_loop tk.delimiters c

/-- Offset of the first backslash of a string, `none` when there is none. -/
def find_backslash : List Nat → Option Nat
  | [] => none
  | c :: rest => if c = 92 then some 0 else (find_backslash rest).map (· + 1)

/-- The call `strstr(backslash_index, "\\")`, with `backslash_index` an offset into
`result`: the offset (from the start of `result`) of the first backslash at or after
`backslash_index`, `none` for `NULL`. -/
def strstr_backslash (result : List Nat) (backslash_index : Nat) : Option Nat :=
  (find_backslash (result.drop backslash_index)).map (· + backslash_index)

/-- The body of the `while` loop of `parse_escape_sequences` for a backslash found at
`index`: the rebuilt buffer `new_result`.  Each of the blocks `new_result` and `buf`
is checked against what is written into it. -/
def parse_escape_sequences_body (string_size : Nat) (result : List Nat) (index : Nat) :
    Outcome (List Nat) :=
  let escape_character := get_escape_sequence (result.getD (index + 1) 0)
  if escape_character ≠ -1 then
    -- new_result = malloc(string_size - 1); strcpy(new_result, result)
    if fits (result.length + 1) (string_size - 1) = false then .out_of_bounds
    else
      -- new_result[index] = escape_character; new_result[index + 1] = 0
      let new_result := result.take index ++ [escape_character.toNat]
      let current_index := index + 2
      let end_index := string_size
      if current_index < end_index then
        -- buf = malloc(end_index - current_index); strcpy(buf, current_index)
        let buf := result.drop current_index
        if fits (buf.length + 1) (end_index - current_index) = false then .out_of_bounds
        else
          -- strncat(new_result, buf, end_index - current_index)
          let new_result := new_result ++ buf.take (end_index - current_index)
          if fits (new_result.length + 1) (string_size - 1) = false then .out_of_bounds
          else .ok new_result
      else .ok new_result
  else
    -- new_result = malloc(string_size - 1); memcpy(new_result, result, index);
    -- new_result[index] = 0
    if fits (index + 1) (string_size - 1) = false then .out_of_bounds
    else
      let new_result := result.take index
      let current_index := index + 1
      let end_index := string_size
      if current_index < end_index then
        -- buf = malloc(end_index - current_index); strcpy(buf, current_index)
        let buf := result.drop current_index
        if fits (buf.length + 1) (end_index - current_index) = false then .out_of_bounds
        else
          -- strncat(new_result, buf, end_index - current_index)
          let new_result := new_result ++ buf.take (end_index - current_index)
          if fits (new_result.length + 1) (string_size - 1) = false then .out_of_bounds
          else .ok new_result
      else .ok new_result

/-- The `while` loop of `parse_escape_sequences`.  `string_size` is the length of the
original string, `result` the current buffer and `backslash_index` the offset the next
search starts from.

After a backslash that ended the buffer was cut, the search starts one byte beyond the
terminator of `result`.  A backslash found there, at an offset `j`, makes the body run
again; that run copies the string `result` up to its terminator and appends bytes from
behind it only if `j + 1 < string_size`.  So with `string_size ≤ backslash_index + 1`
the string at `result` is the cut one whatever the search finds, and the loop is taken
to end with it; otherwise what is returned hangs on the bytes behind the terminator. -/
def parse_escape_sequences_loop (string_size : Nat) :
    Nat → List Nat → Nat → Outcome (List Nat)
  | 0, _, _ => .out_of_fuel
  | fuel + 1, result, backslash_index =>
    if result.length < backslash_index then
      if string_size ≤ backslash_index + 1 then .ok result else .out_of_bounds
    else
      match strstr_backslash result backslash_index with
      | none => .ok result
      | some index =>
        match parse_escape_sequences_body string_size result index with
        | .ok new_result =>
          parse_escape_sequences_loop string_size fuel new_result (index + 1)
        | .out_of_bounds => .out_of_bounds
        | .out_of_fuel => .out_of_fuel

/-- Finds the escape notations of a string and replaces them with the bytes they stand
for. -/
def parse_escape_sequences (string : List Nat) : Outcome (List Nat) :=
  -- result = malloc(strlen(string)); strcpy(result, string)
  if fits (string.length + 1) string.length = false then .out_of_bounds
  else parse_escape_sequences_loop string.length (string.length + 1) string 0

/-- The body of the `while` loop of `parse_token` for an escape character found at
`index`: the rebuilt token `new_token`.  Each of the blocks `new_token` and `buf` is
checked against what is written into it. -/
def parse_token_body (token : List Nat) (index : Nat) : Outcome (List Nat) :=
  let token_size := token.length
  -- new_token = malloc(token_size + 5); memcpy(new_token, token, index);
  -- new_token[index] = 0
  if fits (index + 1) (token_size + 5) = false then .out_of_bounds
  else
    let new_token := token.take index
    let escape_sequence := token.getD index 0
    let first := nibble_to_char ((escape_sequence >>> 4) &&& 0x0f)
    let second := nibble_to_char (escape_sequence &&& 0x0f)
    -- buf = malloc(6); sprintf(buf, "[0x%c%c]", first, second)
    let buf := [91, 48, 120, first, second, 93]
    if fits (buf.length + 1) 6 = false then .out_of_bounds
    else
      -- strncat(new_token, buf, 6)
      let new_token := new_token ++ buf.take 6
      if fits (new_token.length + 1) (token_size + 5) = false then .out_of_bounds
      else
        let current_index := index + 1
        let end_index := current_index + token_size
        if current_index < end_index then
          -- buf = malloc(end_index - current_index); strcpy(buf, current_index)
          let buf := token.drop current_index
          if fits (buf.length + 1) (end_index - current_index) = false then .out_of_bounds
          else
            -- strncat(new_token, buf, end_index - current_index)
            let new_token := new_token ++ buf.take (end_index - current_index)
            if fits (new_token.length + 1) (token_size + 5) = false then .out_of_bounds
            else .ok new_token
        else .ok new_token

/-- The `while` loop of `parse_token`: as long as `find_escape_character` finds an
escape character, the token is rebuilt with that one character replaced. -/
def parse_token_loop : Nat → List Nat → Outcome (List Nat)
  | 0, _ => .out_of_fuel
  | fuel + 1, token =>
    match find_escape_character token with
    | none => .ok token
    | some index =>
      match parse_token_body token index with
      | .ok new_token => parse_token_loop fuel new_token
      | .out_of_bounds => .out_of_bounds
      | .out_of_fuel => .out_of_fuel

/-- Replaces every escape character of a token with its hex form. -/
def parse_token (token : List Nat) : Outcome (List Nat) :=
  parse_token_loop (token.length + 1) token

/-- The `while` loop of `next_token`: from `current_index`, steps over the bytes that
are not delimiters as long as `current_index < end_index + 1`; the byte at `end_index`
is the terminator. -/
def next_token_loop (tk : tokenizer_t) (end_index : Nat) : Nat → Nat → Outcome Nat
  | 0, _ => .out_of_fuel
  | fuel + 1, current_index =>
    if current_index < end_index + 1 then
      let current_char := tk.stream.getD current_index 0
      if is_delimiter tk current_char then .ok current_index
      else next_token_loop tk end_index fuel (current_index + 1)
    else .ok current_index

/-- Finds the next token.  The value is the returned string (`none` for `NULL`) and the
tokenizer after the call.  When the stream index is beyond the terminator,
`strlen(tk->stream_index)` and the scan read bytes that are not part of the stream, and
what is returned hangs on them. -/
def next_token (tk : tokenizer_t) : Outcome (Option (List Nat) × tokenizer_t) :=
  let start_index := tk.stream_index
  if tk.stream.length < start_index then .out_of_bounds
  else
    let end_index := start_index + (tk.stream.length - start_index)
    if start_index = end_index then .ok (none, tk)
    else
      (next_token_loop tk end_index (end_index + 2 - start_index) start_index).bind
        fun current_index =>
          let token_size := current_index - start_index
          -- token = malloc(token_size); memcpy(token, tk->stream_index, token_size);
          -- token[token_size] = 0
          if fits (token_size + 1) token_size = false then .out_of_bounds
          else
            -- when the terminator of the stream was copied too, it ends the token
            let token := (tk.stream.drop start_index).take token_size
            (parse_token token).bind fun parsed =>
              .ok (some parsed, { tk with stream_index := current_index + 1 })

/-- Constructor of a tokenizer: both arguments are decoded, and the stream index is
the start of the stream. -/
def create (delimiters stream : List Nat) : Outcome tokenizer_t :=
  (parse_escape_sequences delimiters).bind fun decoded_delimiters =>
    (parse_escape_sequences stream).bind fun decoded_stream =>
      .ok { delimiters := decoded_delimiters, stream := decoded_stream, stream_index := 0 }

/-- The result of call number `n + 1` of `next_token` on a tokenizer, as in the loop of
`main`: each call runs on the tokenizer the call before it left. -/
def next_token_nth : Nat → tokenizer_t → Outcome (Option (List Nat) × tokenizer_t)
  | 0, tk => next_token tk
  | n + 1, tk => (next_token tk).bind fun previous => next_token_nth n previous.2

/-! ## Reference definitions

The definitions below are not part of the program: they are the single left-to-right
passes and the counts its behaviour is compared with. -/

/-- The nine bytes the escape table stands for: tab, newline, vertical tab, backspace,
carriage return, form feed, bell, double quote, backslash. -/
def control_bytes : List Nat := [0x09, 0x0a, 0x0b, 0x08, 0x0d, 0x0c, 0x07, 0x22, 0x5c]

/-- The lowercase hex digit of a value below sixteen. -/
def hex_digit (n : Nat) : Nat := if n < 10 then 48 + n else 87 + n

/-- The six characters `[0xHH]` for the byte `b`: high nibble first, then low nibble. -/
def hex_form (b : Nat) : List Nat :=
  [91, 48, 120, hex_digit (b / 16 % 16), hex_digit (b % 16), 93]

/-- What one byte of a token becomes: its hex annotation for a control byte, itself
otherwise. -/
def encode_byte (b : Nat) : List Nat :=
  if b ∈ control_bytes then hex_form b else [b]

/-- The single left-to-right pass over a token. -/
def encode : List Nat → List Nat
  | [] => []
  | b :: rest => encode_byte b ++ encode rest

/-- Number of control bytes of a token. -/
def count_control_bytes (token : List Nat) : Nat :=
  token.countP (fun b => decide (b ∈ control_bytes))

/-- The byte a marker (the character after a backslash) stands for, for the nine
markers t, n, v, b, r, f, a, double quote and backslash. -/
def marker_control (m : Nat) : Option Nat :=
  if m = 116 then some 0x09
  else if m = 110 then some 0x0a
  else if m = 118 then some 0x0b
  else if m = 98 then some 0x08
  else if m = 114 then some 0x0d
  else if m = 102 then some 0x0c
  else if m = 97 then some 0x07
  else if m = 34 then some 0x22
  else if m = 92 then some 0x5c
  else none

/-- The single left-to-right pass `Dec` over an input string: a backslash and a marker
give the control byte, a backslash and any other character give that character, a
backslash alone at the end gives nothing, and any other character is kept. -/
def Dec : List Nat → List Nat
  | [] => []
  | c :: rest =>
    if c = 92 then
      match rest with
      | [] => []
      | m :: rest2 =>
        match marker_control m with
        | some control => control :: Dec rest2
        | none => m :: Dec rest2
    else c :: Dec rest

/-- Whether each of the `k` tokens that `parse_token` builds from a token of `length`
bytes with `k` control bytes lies, terminator included, inside its block: the rebuilt
token has `length + 5` characters and its block is `malloc(length + 5)`. -/
def rebuilt_tokens_fit : Nat → Nat → Bool
  | _, 0 => true
  | length, k + 1 => fits (length + 6) (length + 5) && rebuilt_tokens_fit (length + 5) k

/-- Number of bytes of `rest` that stand before its first delimiter byte; the length of
`rest` when it has no delimiter byte. -/
def token_span (tk : tokenizer_t) (rest : List Nat) : Nat :=
  (rest.takeWhile (fun b => !is_delimiter tk b)).length

/-- Number of bytes `next_token` copies into the token when `rest` is the stream from
the stream index on: the bytes before the first delimiter byte, or, when there is no
delimiter byte, all of `rest` and its terminator. -/
def copied_bytes (tk : tokenizer_t) (rest : List Nat) : Nat :=
  if token_span tk rest < rest.length then token_span tk rest else rest.length + 1

/-! ## The search for an escape character -/

theorem strchr_none {s : List Nat} {c : Nat} (h : strchr s c = none) : c ∉ s := by
  induction s with
  | nil => simp
  | cons b rest ih =>
    simp only [strchr] at h
    split at h
    · simp at h
    · rename_i hb
      simp only [Option.map_eq_none'] at h
      simp only [List.mem_cons, not_or]
      exact ⟨fun hc => hb hc.symm, ih h⟩

theorem strchr_some {s : List Nat} {c i : Nat} (h : strchr s c = some i) :
    ∃ pre post, s = pre ++ c :: post ∧ pre.length = i := by
  induction s generalizing i with
  | nil => simp [strchr] at h
  | cons b rest ih =>
    simp only [strchr] at h
    split at h
    · rename_i hb
      simp only [Option.some.injEq] at h
      exact ⟨[], rest, by simp [hb], by simp [h]⟩
    · simp only [Option.map_eq_some'] at h
      obtain ⟨j, hj, rfl⟩ := h
      obtain ⟨pre, post, hs, hl⟩ := ih hj
      exact ⟨b :: pre, post, by simp [hs], by simp [hl]⟩

theorem find_escape_character_loop_none {table : List escape_sequence_t} {s : List Nat}
    (h : find_escape_character_loop table s = none) :
    ∀ e ∈ table, e.actual ∉ s := by
  induction table with
  | nil => simp
  | cons e rest ih =>
    simp only [find_escape_character_loop] at h
    split at h
    · simp at h
    · rename_i hn
      intro e2 he2
      rcases List.mem_cons.mp he2 with rfl | hr
      · exact strchr_none hn
      · exact ih h e2 hr

theorem find_escape_character_loop_some {table : List escape_sequence_t} {s : List Nat}
    {i : Nat} (h : find_escape_character_loop table s = some i) :
    ∃ e ∈ table, strchr s e.actual = some i := by
  induction table with
  | nil => simp [find_escape_character_loop] at h
  | cons e rest ih =>
    simp only [find_escape_character_loop] at h
    split at h
    · rename_i tmp hs
      simp only [Option.some.injEq] at h
      subst h
      exact ⟨e, by simp, hs⟩
    · obtain ⟨e2, he2, hs⟩ := ih h
      exact ⟨e2, by simp [he2], hs⟩

theorem mem_control_bytes_iff (c : Nat) :
    c ∈ control_bytes ↔ ∃ e ∈ escape_sequences, e.actual = c := by
  have : control_bytes = escape_sequences.map (·.actual) := by decide
  rw [this, List.mem_map]

theorem find_escape_character_none {s : List Nat} (h : find_escape_character s = none) :
    ∀ b ∈ s, b ∉ control_bytes := by
  intro b hb hc
  obtain ⟨e, he, rfl⟩ := (mem_control_bytes_iff b).mp hc
  exact find_escape_character_loop_none h e he hb

theorem find_escape_character_some {s : List Nat} {i : Nat}
    (h : find_escape_character s = some i) :
    ∃ pre c post, s = pre ++ c :: post ∧ pre.length = i ∧ c ∈ control_bytes := by
  obtain ⟨e, he, hs⟩ := find_escape_character_loop_some h
  obtain ⟨pre, post, hs, hl⟩ := strchr_some hs
  exact ⟨pre, e.actual, post, hs, hl, (mem_control_bytes_iff _).mpr ⟨e, he, rfl⟩⟩

/-! ## Blocks -/

theorem le_malloc_usable_size (n : Nat) : n ≤ malloc_usable_size n := by
  unfold malloc_usable_size
  split
  · assumption
  · omega

theorem malloc_usable_size_mono {a b : Nat} (h : a ≤ b) :
    malloc_usable_size a ≤ malloc_usable_size b := by
  unfold malloc_usable_size
  split <;> split <;> omega

theorem fits_of_le {bytes size : Nat} (h : bytes ≤ size) : fits bytes size = true := by
  have := le_malloc_usable_size size
  simp only [fits, decide_eq_true_eq]
  omega

theorem fits_of_le_of_fits {a b size : Nat} (h : a ≤ b) (hb : fits b size = true) :
    fits a size = true := by
  simp only [fits, decide_eq_true_eq] at hb ⊢
  omega

/-! ## The encoder `parse_token` -/

theorem getD_append_cons (pre post : List Nat) (c d : Nat) :
    (pre ++ c :: post).getD pre.length d = c := by
  induction pre with
  | nil => rfl
  | cons a pre ih => simpa using ih

theorem getD_append_length (pre : List Nat) (d : Nat) :
    pre.getD pre.length d = d := by
  induction pre with
  | nil => rfl
  | cons a pre ih => simp

/-- One run of the body of the loop of `parse_token` at the byte `c`: the token is
rebuilt with `c` replaced by six characters; the rebuilt token has five characters more
and is written, with its terminator, into the block `malloc(token_size + 5)`. -/
theorem parse_token_body_append (pre post : List Nat) (c : Nat) :
    parse_token_body (pre ++ c :: post) pre.length =
      if fits ((pre ++ c :: post).length + 6) ((pre ++ c :: post).length + 5) then
        .ok (pre ++ [91, 48, 120, nibble_to_char ((c >>> 4) &&& 0x0f),
          nibble_to_char (c &&& 0x0f), 93] ++ post)
      else .out_of_bounds := by
  have hget := getD_append_cons pre post c 0
  have htake : List.take pre.length (pre ++ c :: post) = pre := List.take_left _ _
  have hdrop : List.drop (pre.length + 1) (pre ++ c :: post) = post := by
    have := List.drop_left (pre ++ [c]) post
    simp only [List.append_assoc, List.singleton_append, List.length_append,
      List.length_singleton] at this
    exact this
  have hsub : pre.length + 1 + (pre ++ c :: post).length - (pre.length + 1)
      = (pre ++ c :: post).length := by omega
  have htk : List.take (pre ++ c :: post).length post = post :=
    List.take_of_length_le (by simp only [List.length_append, List.length_cons]; omega)
  have h6 : malloc_usable_size 6 = 24 := by decide
  have hU := le_malloc_usable_size ((pre ++ c :: post).length + 5)
  have hB := le_malloc_usable_size (pre ++ c :: post).length
  unfold parse_token_body
  simp only [hget, htake, hdrop, hsub, htk]
  simp only [fits, decide_eq_false_iff_not, decide_eq_true_eq,
    h6, List.take, List.length_append, List.length_cons, List.length_nil] at hU hB ⊢
  generalize malloc_usable_size (pre.length + (post.length + 1) + 5) = U at hU ⊢
  generalize malloc_usable_size (pre.length + (post.length + 1)) = B at hB ⊢
  split_ifs <;> first | rfl | omega

theorem hex_of_control_byte {c : Nat} (hc : c ∈ control_bytes) :
    [91, 48, 120, nibble_to_char ((c >>> 4) &&& 0x0f), nibble_to_char (c &&& 0x0f), 93]
      = hex_form c := by
  simp only [control_bytes, List.mem_cons, List.mem_singleton, List.not_mem_nil, or_false] at hc
  rcases hc with rfl | rfl | rfl | rfl | rfl | rfl | rfl | rfl | rfl <;> decide

theorem encode_hex_of_control_byte {c : Nat} (hc : c ∈ control_bytes) :
    encode (hex_form c) = hex_form c := by
  simp only [control_bytes, List.mem_cons, List.mem_singleton, List.not_mem_nil, or_false] at hc
  rcases hc with rfl | rfl | rfl | rfl | rfl | rfl | rfl | rfl | rfl <;> decide

theorem count_hex_of_control_byte {c : Nat} (hc : c ∈ control_bytes) :
    count_control_bytes (hex_form c) = 0 := by
  simp only [control_bytes, List.mem_cons, List.mem_singleton, List.not_mem_nil, or_false] at hc
  rcases hc with rfl | rfl | rfl | rfl | rfl | rfl | rfl | rfl | rfl <;> decide

theorem hex_form_no_control_byte {c : Nat} (hc : c ∈ control_bytes) :
    ∀ b ∈ hex_form c, b ∉ control_bytes := by
  simp only [control_bytes, List.mem_cons, List.mem_singleton, List.not_mem_nil, or_false] at hc
  rcases hc with rfl | rfl | rfl | rfl | rfl | rfl | rfl | rfl | rfl <;> decide

theorem encode_append (a b : List Nat) : encode (a ++ b) = encode a ++ encode b := by
  induction a with
  | nil => rfl
  | cons x a ih => simp [encode, ih]

theorem encode_eq_self {s : List Nat} (h : ∀ b ∈ s, b ∉ control_bytes) : encode s = s := by
  induction s with
  | nil => rfl
  | cons x s ih =>
    have hx : x ∉ control_bytes := h x (by simp)
    have hs : ∀ b ∈ s, b ∉ control_bytes := fun b hb => h b (by simp [hb])
    simp [encode, encode_byte, hx, ih hs]

theorem encode_no_control_byte (token : List Nat) : ∀ b ∈ encode token, b ∉ control_bytes := by
  induction token with
  | nil => simp [encode]
  | cons x rest ih =>
    intro b hb
    simp only [encode, List.mem_append] at hb
    rcases hb with hb | hb
    · by_cases hx : x ∈ control_bytes
      · simp only [encode_byte, if_pos hx] at hb
        exact hex_form_no_control_byte hx b hb
      · simp only [encode_byte, if_neg hx, List.mem_singleton] at hb
        subst hb
        exact hx
    · exact ih b hb

theorem count_control_bytes_append (a b : List Nat) :
    count_control_bytes (a ++ b) = count_control_bytes a + count_control_bytes b := by
  simp [count_control_bytes, List.countP_append]

theorem count_control_bytes_le (s : List Nat) : count_control_bytes s ≤ s.length := by
  simp [count_control_bytes, List.countP_le_length]

theorem count_control_bytes_eq_zero {s : List Nat} (h : ∀ b ∈ s, b ∉ control_bytes) :
    count_control_bytes s = 0 := by
  unfold count_control_bytes
  rw [List.countP_eq_zero]
  intro b hb
  simpa using h b hb

theorem encode_length (token : List Nat) :
    (encode token).length = token.length + 5 * count_control_bytes token := by
  induction token with
  | nil => rfl
  | cons b rest ih =>
    by_cases hb : b ∈ control_bytes
    · simp [encode, encode_byte, hb, ih, count_control_bytes, hex_form]
      omega
    · simp [encode, encode_byte, hb, ih, count_control_bytes]
      omega

/-- One iteration of the loop of `parse_token`: the byte found is a control byte; the
rebuilt token is five characters longer and is written into a block asked for with
exactly that many bytes, one less than the characters and their terminator need.
When the write stays inside the block, the rebuilt token has the same single-pass
encoding and one control byte less. -/
theorem parse_token_body_spec {token : List Nat} {index : Nat}
    (h : find_escape_character token = some index) :
    ∃ new_token, encode new_token = encode token ∧
      count_control_bytes new_token + 1 = count_control_bytes token ∧
      new_token.length = token.length + 5 ∧
      parse_token_body token index =
        if fits (token.length + 6) (token.length + 5) then .ok new_token
        else .out_of_bounds := by
  obtain ⟨pre, c, post, rfl, rfl, hc⟩ := find_escape_character_some h
  refine ⟨pre ++ hex_form c ++ post, ?_, ?_, ?_, ?_⟩
  · simp only [encode_append, encode_hex_of_control_byte hc]
    simp [encode, encode_byte, hc]
  · simp only [count_control_bytes_append, count_hex_of_control_byte hc]
    simp [count_control_bytes, hc]
    omega
  · simp [hex_form]
    omega
  · rw [parse_token_body_append, hex_of_control_byte hc]

/-- What the loop of `parse_token` does with more fuel than the token has control
bytes: it returns the single-pass encoding of the token when every rebuilt token lies
inside its block, and ends on a write outside a block otherwise. -/
theorem parse_token_loop_eq (fuel : Nat) (token : List Nat)
    (h : count_control_bytes token < fuel) :
    parse_token_loop fuel token =
      if rebuilt_tokens_fit token.length (count_control_bytes token) then
        .ok (encode token)
      else .out_of_bounds := by
  induction fuel generalizing token with
  | zero => omega
  | succ fuel ih =>
    unfold parse_token_loop
    cases hf : find_escape_character token with
    | none =>
      have hno := find_escape_character_none hf
      simp [encode_eq_self hno, count_control_bytes_eq_zero hno, rebuilt_tokens_fit]
    | some index =>
      obtain ⟨new_token, he, hcnt, hlen, hbody⟩ := parse_token_body_spec hf
      obtain ⟨k, hk⟩ : ∃ k, count_control_bytes token = k + 1 := ⟨_, hcnt.symm⟩
      have hk2 : count_control_bytes new_token = k := by omega
      simp only [hbody, hk, rebuilt_tokens_fit]
      cases hfit : fits (token.length + 6) (token.length + 5) with
      | false => simp
      | true =>
        simp only [if_true, Bool.true_and]
        rw [ih new_token (by omega), he, hlen, hk2]

/-- What `parse_token` does: the single-pass encoding of the token, unless one of the
rebuilt tokens does not lie inside its block. -/
theorem parse_token_eq (token : List Nat) :
    parse_token token =
      if rebuilt_tokens_fit token.length (count_control_bytes token) then
        .ok (encode token)
      else .out_of_bounds :=
  parse_token_loop_eq _ _ (by have := count_control_bytes_le token; omega)

theorem parse_token_ok {token out : List Nat} (h : parse_token token = .ok out) :
    out = encode token := by
  rw [parse_token_eq] at h
  split at h
  · simp only [Outcome.ok.injEq] at h
    exact h.symm
  · cases h

theorem parse_token_nil : parse_token [] = .ok [] := by decide

theorem parse_token_of_no_control_byte {token : List Nat}
    (h : ∀ b ∈ token, b ∉ control_bytes) : parse_token token = .ok token := by
  rw [parse_token_eq, count_control_bytes_eq_zero h, encode_eq_self h]
  simp [rebuilt_tokens_fit]

/-! ## The decoder `parse_escape_sequences` -/

theorem get_escape_sequence_eq (m : Nat) :
    get_escape_sequence m = match marker_control m with
      | some control => (control : Int)
      | none => -1 := by
  by_cases h1 : m = 116; · subst h1; decide
  by_cases h2 : m = 110; · subst h2; decide
  by_cases h3 : m = 118; · subst h3; decide
  by_cases h4 : m = 98; · subst h4; decide
  by_cases h5 : m = 114; · subst h5; decide
  by_cases h6 : m = 102; · subst h6; decide
  by_cases h7 : m = 97; · subst h7; decide
  by_cases h8 : m = 34; · subst h8; decide
  by_cases h9 : m = 92; · subst h9; decide
  have e : marker_control m = none := by
    simp only [marker_control, if_neg h1, if_neg h2, if_neg h3, if_neg h4, if_neg h5, if_neg h6,
      if_neg h7, if_neg h8, if_neg h9]
  rw [e]
  simp only [get_escape_sequence, get_escape_sequence_loop, escape_sequences,
    if_neg (Ne.symm h1), if_neg (Ne.symm h2), if_neg (Ne.symm h3), if_neg (Ne.symm h4),
    if_neg (Ne.symm h5), if_neg (Ne.symm h6), if_neg (Ne.symm h7), if_neg (Ne.symm h8),
    if_neg (Ne.symm h9)]

theorem find_backslash_none {s : List Nat} (h : find_backslash s = none) : ∀ b ∈ s, b ≠ 92 := by
  induction s with
  | nil => simp
  | cons c rest ih =>
    simp only [find_backslash] at h
    split at h
    · simp at h
    · rename_i hc
      simp only [Option.map_eq_none'] at h
      intro b hb
      rcases List.mem_cons.mp hb with rfl | hr
      · exact hc
      · exact ih h b hr

theorem find_backslash_some {s : List Nat} {i : Nat} (h : find_backslash s = some i) :
    ∃ pre tail, s = pre ++ 92 :: tail ∧ pre.length = i ∧ ∀ b ∈ pre, b ≠ 92 := by
  induction s generalizing i with
  | nil => simp [find_backslash] at h
  | cons c rest ih =>
    simp only [find_backslash] at h
    split at h
    · rename_i hc
      simp only [Option.some.injEq] at h
      exact ⟨[], rest, by simp [hc], by simp [h], by simp⟩
    · rename_i hc
      simp only [Option.map_eq_some'] at h
      obtain ⟨j, hj, rfl⟩ := h
      obtain ⟨pre, tail, hs, hl, hp⟩ := ih hj
      refine ⟨c :: pre, tail, by simp [hs], by simp [hl], ?_⟩
      intro b hb
      rcases List.mem_cons.mp hb with rfl | hr
      · exact hc
      · exact hp b hr

theorem Dec_cons_of_ne {c : Nat} (h : c ≠ 92) (rest : List Nat) :
    Dec (c :: rest) = c :: Dec rest := by
  cases rest <;> simp [Dec, h]

theorem Dec_marker {m control : Nat} (h : marker_control m = some control) (t : List Nat) :
    Dec (92 :: m :: t) = control :: Dec t := by
  simp [Dec, h]

theorem Dec_other {m : Nat} (h : marker_control m = none) (t : List Nat) :
    Dec (92 :: m :: t) = m :: Dec t := by
  simp [Dec, h]

theorem Dec_append {pre : List Nat} (h : ∀ b ∈ pre, b ≠ 92) (rest : List Nat) :
    Dec (pre ++ rest) = pre ++ Dec rest := by
  induction pre with
  | nil => rfl
  | cons c pre ih =>
    have hc : c ≠ 92 := h c (by simp)
    have hp : ∀ b ∈ pre, b ≠ 92 := fun b hb => h b (by simp [hb])
    rw [List.cons_append, Dec_cons_of_ne hc, ih hp, List.cons_append]

theorem Dec_of_no_backslash {s : List Nat} (h : ∀ b ∈ s, b ≠ 92) : Dec s = s := by
  have := Dec_append h []
  simpa [Dec] using this

theorem marker_control_ne_zero : marker_control 0 = none := by decide

/-- The loop body at a backslash that ends the buffer: when it returns, the backslash
is cut off. -/
theorem parse_escape_sequences_body_lone (string_size : Nat) (out r : List Nat)
    (h : parse_escape_sequences_body string_size (out ++ [92]) out.length = .ok r) :
    r = out := by
  have hget : (out ++ [92]).getD (out.length + 1) 0 = 0 := by
    have := getD_append_length (out ++ [92]) 0
    simp only [List.length_append, List.length_singleton] at this
    exact this
  have htake : List.take out.length (out ++ [92]) = out := List.take_left _ _
  have hdrop : List.drop (out.length + 1) (out ++ [92]) = [] := by
    have := List.drop_left (out ++ [92]) []
    simp only [List.append_nil, List.length_append, List.length_singleton] at this
    exact this
  unfold parse_escape_sequences_body at h
  rw [hget, get_escape_sequence_eq, marker_control_ne_zero] at h
  simp only [ne_eq, not_true_eq_false, if_false, htake, hdrop, List.take_nil,
    List.append_nil] at h
  split_ifs at h <;> (simp only [Outcome.ok.injEq] at h; exact h.symm)

/-- The loop body at a backslash followed by a marker: when it returns, the pair has
become the control byte, and what follows is kept whole. -/
theorem parse_escape_sequences_body_marker (string_size : Nat) (out t r : List Nat)
    (m control : Nat) (hm : marker_control m = some control)
    (hlen : (out ++ 92 :: m :: t).length ≤ string_size)
    (h : parse_escape_sequences_body string_size (out ++ 92 :: m :: t) out.length = .ok r) :
    r = out ++ control :: t := by
  have hget : (out ++ 92 :: m :: t).getD (out.length + 1) 0 = m := by
    have := getD_append_cons (out ++ [92]) t m 0
    simp only [List.append_assoc, List.singleton_append, List.length_append,
      List.length_singleton] at this
    exact this
  have hne : ((control : Nat) : Int) ≠ -1 := by omega
  have hdrop : List.drop (out.length + 2) (out ++ 92 :: m :: t) = t := by
    have := List.drop_left (out ++ [92, m]) t
    simp only [List.append_assoc, List.cons_append, List.nil_append, List.length_append,
      List.length_cons, List.length_nil] at this
    exact this
  have htake : List.take out.length (out ++ 92 :: m :: t) = out := List.take_left _ _
  simp only [List.length_append, List.length_cons] at hlen
  unfold parse_escape_sequences_body at h
  rw [hget, get_escape_sequence_eq, hm] at h
  simp only [ne_eq, hne, not_false_eq_true, if_true, Int.toNat_ofNat, hdrop, htake] at h
  split_ifs at h with h1 h2 h3 h4
  · simp only [Outcome.ok.injEq] at h
    rw [← h, List.take_of_length_le (by omega)]
    simp
  · simp only [Outcome.ok.injEq] at h
    have : t = [] := List.eq_nil_of_length_eq_zero (by omega)
    rw [← h, this]

/-- The loop body at a backslash followed by a character that is no marker: when it
returns, the backslash is cut out, the character and what follows are kept. -/
theorem parse_escape_sequences_body_other (string_size : Nat) (out t r : List Nat)
    (m : Nat) (hm : marker_control m = none)
    (hlen : (out ++ 92 :: m :: t).length ≤ string_size)
    (h : parse_escape_sequences_body string_size (out ++ 92 :: m :: t) out.length = .ok r) :
    r = out ++ m :: t := by
  have hget : (out ++ 92 :: m :: t).getD (out.length + 1) 0 = m := by
    have := getD_append_cons (out ++ [92]) t m 0
    simp only [List.append_assoc, List.singleton_append, List.length_append,
      List.length_singleton] at this
    exact this
  have hdrop : List.drop (out.length + 1) (out ++ 92 :: m :: t) = m :: t := by
    have := List.drop_left (out ++ [92]) (m :: t)
    simp only [List.append_assoc, List.singleton_append, List.length_append,
      List.length_singleton] at this
    exact this
  have htake : List.take out.length (out ++ 92 :: m :: t) = out := List.take_left _ _
  simp only [List.length_append, List.length_cons] at hlen
  unfold parse_escape_sequences_body at h
  rw [hget, get_escape_sequence_eq, hm] at h
  simp only [ne_eq, not_true_eq_false, if_false, hdrop, htake] at h
  split_ifs at h with h1 h2 h3 h4
  · simp only [Outcome.ok.injEq] at h
    rw [← h, List.take_of_length_le (by simp only [List.length_cons]; omega)]
  · omega

theorem strstr_backslash_append (out rest : List Nat) :
    strstr_backslash (out ++ rest) out.length
      = (find_backslash rest).map (· + out.length) := by
  simp [strstr_backslash]

/-- The loop of `parse_escape_sequences`, started at the end of the part `out` that is
already decoded, with `rest` still to scan: when it returns, the string is `out`
followed by the single left-to-right pass over `rest`. -/
theorem parse_escape_sequences_loop_ok (string_size : Nat) (fuel : Nat) :
    ∀ (rest out r : List Nat), (out ++ rest).length ≤ string_size →
      parse_escape_sequences_loop string_size fuel (out ++ rest) out.length = .ok r →
      r = out ++ Dec rest := by
  induction fuel with
  | zero => intro rest out r _ h; cases h
  | succ fuel ih =>
    intro rest out r hlen h
    unfold parse_escape_sequences_loop at h
    rw [if_neg (by simp), strstr_backslash_append] at h
    cases hf : find_backslash rest with
    | none =>
      rw [hf] at h
      simp only [Option.map_none', Outcome.ok.injEq] at h
      rw [Dec_of_no_backslash (find_backslash_none hf), h]
    | some off =>
      obtain ⟨pre, tail, rfl, rfl, hno⟩ := find_backslash_some hf
      rw [hf] at h
      simp only [Option.map_some'] at h
      have hidx : pre.length + out.length = (out ++ pre).length := by
        simp only [List.length_append]; omega
      have hres : out ++ (pre ++ 92 :: tail) = (out ++ pre) ++ 92 :: tail := by simp
      rw [hidx, hres] at h
      rw [hres] at hlen
      rw [Dec_append hno]
      cases hb : parse_escape_sequences_body string_size (out ++ pre ++ 92 :: tail)
          (out ++ pre).length with
      | out_of_bounds => rw [hb] at h; cases h
      | out_of_fuel => rw [hb] at h; cases h
      | ok new_result =>
        rw [hb] at h
        simp only at h
        cases tail with
        | nil =>
          have e := parse_escape_sequences_body_lone string_size _ _ hb
          subst e
          cases fuel with
          | zero => cases h
          | succ f =>
            unfold parse_escape_sequences_loop at h
            rw [if_pos (by omega)] at h
            split_ifs at h
            simp only [Outcome.ok.injEq] at h
            rw [← h]
            simp [Dec]
        | cons m t =>
          cases hm : marker_control m with
          | some control =>
            have e := parse_escape_sequences_body_marker string_size _ t _ m control hm hlen hb
            subst e
            have hshape : out ++ pre ++ control :: t = (out ++ pre ++ [control]) ++ t := by simp
            have hl : (out ++ pre).length + 1 = (out ++ pre ++ [control]).length := by
              simp only [List.length_append, List.length_singleton]
            rw [hshape, hl] at h
            have := ih t _ r (by
              simp only [List.length_append, List.length_cons, List.length_nil] at hlen ⊢
              omega) h
            rw [this, Dec_marker hm]
            simp
          | none =>
            have e := parse_escape_sequences_body_other string_size _ t _ m hm hlen hb
            subst e
            have hshape : out ++ pre ++ m :: t = (out ++ pre ++ [m]) ++ t := by simp
            have hl : (out ++ pre).length + 1 = (out ++ pre ++ [m]).length := by
              simp only [List.length_append, List.length_singleton]
            rw [hshape, hl] at h
            have := ih t _ r (by
              simp only [List.length_append, List.length_cons, List.length_nil] at hlen ⊢
              omega) h
            rw [this, Dec_other hm]
            simp

/-- Whenever `parse_escape_sequences` returns a string, it is the single left-to-right
pass over its argument. -/
theorem parse_escape_sequences_ok {string r : List Nat}
    (h : parse_escape_sequences string = .ok r) : r = Dec string := by
  unfold parse_escape_sequences at h
  by_cases hfit : fits (string.length + 1) string.length = false
  · rw [if_pos hfit] at h
    cases h
  · rw [if_neg hfit] at h
    have := parse_escape_sequences_loop_ok string.length (string.length + 1) string [] r
      (by simp) (by simpa using h)
    simpa using this

/-! ## The splitter `next_token` -/

theorem is_delimiter_loop_zero (delimiters : List Nat) :
    is_delimiter_loop delimiters 0 = false := by
  induction delimiters with
  | nil => rfl
  | cons separator rest ih =>
    unfold is_delimiter_loop
    by_cases h : separator = 0
    · simp [h]
    · simp [h, Ne.symm h, ih]

/-- The terminator of the stream is never a delimiter. -/
theorem is_delimiter_zero (tk : tokenizer_t) : is_delimiter tk 0 = false :=
  is_delimiter_loop_zero tk.delimiters

theorem is_delimiter_nil (tk : tokenizer_t) (h : tk.delimiters = []) (c : Nat) :
    is_delimiter tk c = false := by
  simp [is_delimiter, h, is_delimiter_loop]

theorem token_span_le (tk : tokenizer_t) (rest : List Nat) :
    token_span tk rest ≤ rest.length := by
  unfold token_span
  exact (List.takeWhile_sublist _).length_le

/-- The scan of `next_token` from the offset `pre.length`, with `rest` the bytes from
there to the terminator: it stops on the first delimiter byte of `rest`, and one byte
beyond the terminator when `rest` has none. -/
theorem next_token_loop_eq (tk : tokenizer_t) :
    ∀ (rest pre : List Nat) (fuel : Nat), tk.stream = pre ++ rest → rest.length + 2 ≤ fuel →
      next_token_loop tk tk.stream.length fuel pre.length
        = .ok (if token_span tk rest < rest.length then pre.length + token_span tk rest
            else tk.stream.length + 1) := by
  intro rest
  induction rest with
  | nil =>
    intro pre fuel hs hfuel
    obtain ⟨f, rfl⟩ : ∃ f, fuel = f + 2 := ⟨fuel - 2, by simp at hfuel; omega⟩
    simp only [List.append_nil] at hs
    have hget : tk.stream.getD pre.length 0 = 0 := by rw [hs]; exact getD_append_length pre 0
    have hlen : tk.stream.length = pre.length := by rw [hs]
    unfold next_token_loop
    rw [if_pos (by omega)]
    simp only [hget, is_delimiter_zero, Bool.false_eq_true, if_false]
    unfold next_token_loop
    rw [if_neg (by omega)]
    simp [token_span, hlen]
  | cons b r ih =>
    intro pre fuel hs hfuel
    obtain ⟨f, rfl⟩ : ∃ f, fuel = f + 1 := ⟨fuel - 1, by simp at hfuel; omega⟩
    have hget : tk.stream.getD pre.length 0 = b := by rw [hs]; exact getD_append_cons pre r b 0
    have hlt : pre.length < tk.stream.length + 1 := by rw [hs]; simp; omega
    unfold next_token_loop
    rw [if_pos hlt]
    simp only [hget]
    cases hb : is_delimiter tk b with
    | true => simp [token_span, hb]
    | false =>
      have hs2 : tk.stream = (pre ++ [b]) ++ r := by simp [hs]
      have := ih (pre ++ [b]) f hs2 (by simp at hfuel ⊢; omega)
      simp only [List.length_append, List.length_singleton] at this
      simp only [Bool.false_eq_true, if_false, this]
      simp only [token_span, List.takeWhile_cons, hb, Bool.not_false, if_true, List.length_cons]
      congr 1
      by_cases hc : (List.takeWhile (fun b => !is_delimiter tk b) r).length < r.length
      · rw [if_pos hc, if_pos (by omega)]; omega
      · rw [if_neg hc, if_neg (by omega)]

/-- A call of `next_token` with the stream index on the terminator: `NULL`, and the
tokenizer is not touched. -/
theorem next_token_at_end (tk : tokenizer_t) (h : tk.stream_index = tk.stream.length) :
    next_token tk = .ok (none, tk) := by
  simp [next_token, h]

/-- A call of `next_token` with the stream index beyond the terminator reads outside
the stream. -/
theorem next_token_beyond (tk : tokenizer_t) (h : tk.stream.length < tk.stream_index) :
    next_token tk = .out_of_bounds := by
  simp [next_token, h]

theorem copied_bytes_le (tk : tokenizer_t) (rest : List Nat) :
    copied_bytes tk rest ≤ rest.length + 1 := by
  have := token_span_le tk rest
  unfold copied_bytes
  split <;> omega

/-- A call of `next_token` with the stream index before the terminator: the token is
made of the bytes up to the first delimiter byte (with no delimiter byte: of all the
bytes left, and the terminator is copied as well), it is written into the block
`malloc(token_size)` and handed to `parse_token`, and the stream index moves one byte
beyond the place where the scan stopped. -/
theorem next_token_eq (tk : tokenizer_t) (h : tk.stream_index < tk.stream.length) :
    next_token tk =
      if fits (copied_bytes tk (tk.stream.drop tk.stream_index) + 1)
          (copied_bytes tk (tk.stream.drop tk.stream_index)) = false then .out_of_bounds
      else
        (parse_token ((tk.stream.drop tk.stream_index).take
            (copied_bytes tk (tk.stream.drop tk.stream_index)))).bind fun parsed =>
          .ok (some parsed, { tk with stream_index :=
            tk.stream_index + copied_bytes tk (tk.stream.drop tk.stream_index) + 1 }) := by
  have hsplit : tk.stream = tk.stream.take tk.stream_index ++ tk.stream.drop tk.stream_index :=
    (List.take_append_drop _ _).symm
  have hpre : (tk.stream.take tk.stream_index).length = tk.stream_index := by
    simp only [List.length_take]; omega
  have hloop := next_token_loop_eq tk (tk.stream.drop tk.stream_index)
    (tk.stream.take tk.stream_index) (tk.stream.length + 2 - tk.stream_index) hsplit
    (by simp only [List.length_drop]; omega)
  rw [hpre] at hloop
  have hend : tk.stream_index + (tk.stream.length - tk.stream_index) = tk.stream.length := by
    omega
  have hle := token_span_le tk (tk.stream.drop tk.stream_index)
  have hdl : (tk.stream.drop tk.stream_index).length = tk.stream.length - tk.stream_index :=
    List.length_drop _ _
  unfold next_token
  simp only [hend]
  rw [if_neg (by omega), if_neg (by omega), hloop]
  unfold copied_bytes
  by_cases hc : token_span tk (tk.stream.drop tk.stream_index)
      < (tk.stream.drop tk.stream_index).length
  · simp only [if_pos hc, Outcome.bind]
    have e : tk.stream_index + token_span tk (tk.stream.drop tk.stream_index)
        - tk.stream_index = token_span tk (tk.stream.drop tk.stream_index) := by omega
    rw [e]
  · simp only [if_neg hc, Outcome.bind]
    have e : tk.stream.length + 1 - tk.stream_index
        = (tk.stream.drop tk.stream_index).length + 1 := by omega
    have e2 : tk.stream_index + ((tk.stream.drop tk.stream_index).length + 1) + 1
        = tk.stream.length + 1 + 1 := by omega
    rw [e, e2]

/-- A call of `next_token` that returns `NULL` has left the tokenizer as it was. -/
theorem next_token_null {tk tk2 : tokenizer_t} (h : next_token tk = .ok (none, tk2)) :
    tk2 = tk := by
  rcases Nat.lt_trichotomy tk.stream_index tk.stream.length with hlt | heq | hgt
  · rw [next_token_eq tk hlt] at h
    split_ifs at h
    cases hp : parse_token ((tk.stream.drop tk.stream_index).take
        (copied_bytes tk (tk.stream.drop tk.stream_index))) with
    | ok parsed => rw [hp] at h; simp [Outcome.bind] at h
    | out_of_bounds => rw [hp] at h; simp [Outcome.bind] at h
    | out_of_fuel => rw [hp] at h; simp [Outcome.bind] at h
  · rw [next_token_at_end tk heq] at h
    simp only [Outcome.ok.injEq, Prod.mk.injEq, true_and] at h
    exact h.symm
  · rw [next_token_beyond tk hgt] at h
    cases h

theorem next_token_nth_at_end (tk : tokenizer_t) (h : next_token tk = .ok (none, tk)) :
    ∀ n, next_token_nth n tk = .ok (none, tk) := by
  intro n
  induction n with
  | zero => exact h
  | succ n ih => simp [next_token_nth, h, Outcome.bind, ih]

/-- What a call of `next_token` that returns leaves behind: the delimiters and the
stream are the ones it was given, the stream index has not gone back, it has gone
forward exactly when a token was returned, and it is at most two bytes beyond the last
byte of the stream. -/
theorem next_token_ok {tk tk2 : tokenizer_t} {r : Option (List Nat)}
    (h : next_token tk = .ok (r, tk2)) :
    tk2.delimiters = tk.delimiters ∧ tk2.stream = tk.stream ∧
    tk.stream_index ≤ tk2.stream_index ∧
    (tk.stream_index < tk2.stream_index ↔ r ≠ none) ∧
    tk2.stream_index ≤ tk.stream.length + 2 := by
  rcases Nat.lt_trichotomy tk.stream_index tk.stream.length with hlt | heq | hgt
  · rw [next_token_eq tk hlt] at h
    have hle := copied_bytes_le tk (tk.stream.drop tk.stream_index)
    rw [List.length_drop] at hle
    split_ifs at h
    cases hp : parse_token ((tk.stream.drop tk.stream_index).take
        (copied_bytes tk (tk.stream.drop tk.stream_index))) with
    | ok parsed =>
      rw [hp] at h
      simp only [Outcome.bind, Outcome.ok.injEq, Prod.mk.injEq] at h
      obtain ⟨hr, ht⟩ := h
      subst hr ht
      refine ⟨rfl, rfl, ?_, ?_, ?_⟩
      · simp only; omega
      · simp only [ne_eq, reduceCtorEq, not_false_eq_true, iff_true]; omega
      · simp only; omega
    | out_of_bounds => rw [hp] at h; simp [Outcome.bind] at h
    | out_of_fuel => rw [hp] at h; simp [Outcome.bind] at h
  · rw [next_token_at_end tk heq] at h
    simp only [Outcome.ok.injEq, Prod.mk.injEq] at h
    obtain ⟨hr, ht⟩ := h
    subst hr ht
    simp
    omega
  · rw [next_token_beyond tk hgt] at h
    cases h

theorem drop_eq_getD_cons {l : List Nat} {i : Nat} (h : i < l.length) :
    l.drop i = l.getD i 0 :: l.drop (i + 1) := by
  induction l generalizing i with
  | nil => simp at h
  | cons a l ih =>
    cases i with
    | zero => rfl
    | succ i =>
      have := ih (i := i) (by simpa using h)
      simpa using this

/-- C1 (the code at the example of the claim): with the delimiter `,` and the stream
`a,,b`, the first three calls of `next_token` return `a`, the empty token and `b`; the
third call leaves the stream index at offset 6, two bytes beyond the last byte and one
beyond the terminator at offset 4, so the fourth call, the one the claim says returns
`NULL`, reads outside the stream. -/
theorem C1_fourth_call_reads_beyond_the_stream :
    create [44] [97, 44, 44, 98] = .ok ⟨[44], [97, 44, 44, 98], 0⟩ ∧
    next_token_nth 0 ⟨[44], [97, 44, 44, 98], 0⟩
      = .ok (some [97], ⟨[44], [97, 44, 44, 98], 2⟩) ∧
    next_token_nth 1 ⟨[44], [97, 44, 44, 98], 0⟩
      = .ok (some [], ⟨[44], [97, 44, 44, 98], 3⟩) ∧
    next_token_nth 2 ⟨[44], [97, 44, 44, 98], 0⟩
      = .ok (some [98], ⟨[44], [97, 44, 44, 98], 6⟩) ∧
    next_token_nth 3 ⟨[44], [97, 44, 44, 98], 0⟩ = .out_of_bounds := by
  decide

/-- C2 (the code at the token of four tabs): the single pass gives four times
`[0x09]`; `parse_token` returns that pass for three tabs, but for four tabs the fourth
run of its loop rebuilds the token of 19 characters into a block of `19 + 5 = 24`
bytes and writes 24 characters and their terminator, one byte beyond the block. -/
theorem C2_four_tabs_do_not_fit :
    parse_token [9, 9, 9] = .ok (encode [9, 9, 9]) ∧
    encode [9, 9, 9, 9]
      = [91, 48, 120, 48, 57, 93, 91, 48, 120, 48, 57, 93,
         91, 48, 120, 48, 57, 93, 91, 48, 120, 48, 57, 93] ∧
    (encode [9, 9, 9] ++ [9]).length = 19 ∧
    malloc_usable_size (19 + 5) = 24 ∧
    parse_token_body (encode [9, 9, 9] ++ [9]) 18 = .out_of_bounds ∧
    parse_token [9, 9, 9, 9] = .out_of_bounds := by
  decide

/-- C3 (the code at two strings of 25 characters): for backslash, `q` and 23 times
`a` the pass `Dec` gives `q` and 23 times `a`, and for backslash, `n` and 23 times `a`
it gives the newline byte and 23 times `a`; `parse_escape_sequences` asks for
`new_result` with `string_size - 1 = 24` bytes and writes 24 characters and a
terminator (first string), the whole of `result` (second string) into it, beyond the
block.  On the string of one backslash it returns the empty string, as `Dec` does. -/
theorem C3_decoder_writes_beyond_its_block :
    Dec (92 :: 113 :: List.replicate 23 97) = 113 :: List.replicate 23 97 ∧
    parse_escape_sequences (92 :: 113 :: List.replicate 23 97) = .out_of_bounds ∧
    Dec (92 :: 110 :: List.replicate 23 97) = 10 :: List.replicate 23 97 ∧
    parse_escape_sequences (92 :: 110 :: List.replicate 23 97) = .out_of_bounds ∧
    Dec [92] = [] ∧ parse_escape_sequences [92] = .ok [] := by
  decide

/-- C4: for every entry of the escape table, decoding the backslash followed by the
marker and encoding the result gives the six characters `[0xHH]` of the control byte
of that entry; marker `n` gives `[0x0a]`, marker `t` gives `[0x09]`, the double quote
gives `[0x22]` and the backslash gives `[0x5c]`. -/
theorem C4_marker_round_trip :
    (∀ e ∈ escape_sequences,
      (parse_escape_sequences [92, e.expected]).bind parse_token
        = .ok (hex_form e.actual)) ∧
    (parse_escape_sequences [92, 110]).bind parse_token = .ok [91, 48, 120, 48, 97, 93] ∧
    (parse_escape_sequences [92, 116]).bind parse_token = .ok [91, 48, 120, 48, 57, 93] ∧
    (parse_escape_sequences [92, 34]).bind parse_token = .ok [91, 48, 120, 50, 50, 93] ∧
    (parse_escape_sequences [92, 92]).bind parse_token = .ok [91, 48, 120, 53, 99, 93] := by
  refine ⟨?_, by decide, by decide, by decide, by decide⟩
  intro e he
  simp only [escape_sequences, List.mem_cons, List.mem_singleton, List.not_mem_nil,
    or_false] at he
  rcases he with rfl | rfl | rfl | rfl | rfl | rfl | rfl | rfl | rfl <;> decide

theorem C4_marker_round_trip_witness :
    (⟨110, 10⟩ : escape_sequence_t) ∈ escape_sequences ∧
    (parse_escape_sequences [92, 110]).bind parse_token = .ok (hex_form 10) :=
  ⟨by decide, C4_marker_round_trip.1 ⟨110, 10⟩ (by decide)⟩

/-- C5 as stated fails: the token made of one tab byte has one control byte and
length 1, and `parse_token` returns the six characters `[0x09]`, not 1 + 3 = 4. -/
theorem C5_length_is_not_three_per_control_byte :
    ¬ ∀ token out : List Nat, parse_token token = .ok out →
        out.length = token.length + 3 * count_control_bytes token := by
  intro h
  have := h [9] [91, 48, 120, 48, 57, 93] (by decide)
  revert this
  decide

/-- C5 (amended): for every token with `k` control bytes, the string `parse_token`
returns, when it returns one, is never shorter than the token and its length is
exactly the length of the token plus `5 * k`; it returns one whenever every rebuilt
token lies inside its block. -/
theorem C5_parse_token_length (token : List Nat) :
    (∀ out, parse_token token = .ok out →
      token.length ≤ out.length ∧
      out.length = token.length + 5 * count_control_bytes token) ∧
    (rebuilt_tokens_fit token.length (count_control_bytes token) = true →
      ∃ out, parse_token token = .ok out) := by
  constructor
  · intro out h
    rw [parse_token_ok h, encode_length]
    omega
  · intro hfit
    exact ⟨encode token, by rw [parse_token_eq, if_pos hfit]⟩

theorem C5_parse_token_length_witness :
    parse_token [97, 9, 98] = .ok [97, 91, 48, 120, 48, 57, 93, 98] ∧
    (([97, 9, 98] : List Nat).length ≤ ([97, 91, 48, 120, 48, 57, 93, 98] : List Nat).length ∧
      ([97, 91, 48, 120, 48, 57, 93, 98] : List Nat).length
        = ([97, 9, 98] : List Nat).length + 5 * count_control_bytes [97, 9, 98]) :=
  ⟨by decide,
    (C5_parse_token_length [97, 9, 98]).1 [97, 91, 48, 120, 48, 57, 93, 98] (by decide)⟩

/-- C6: if a call of `next_token` returns `NULL`, the tokenizer it leaves is the
tokenizer it was given (delimiters, stream and stream index), and every later call on
it returns `NULL` again and leaves it as it is. -/
theorem C6_end_of_stream_is_stable (tk tk2 : tokenizer_t)
    (h : next_token tk = .ok (none, tk2)) :
    tk2 = tk ∧ ∀ n, next_token_nth n tk2 = .ok (none, tk2) := by
  have e := next_token_null h
  subst e
  exact ⟨rfl, next_token_nth_at_end _ h⟩

theorem C6_end_of_stream_is_stable_witness :
    next_token ⟨[44], [97, 44], 2⟩ = .ok (none, ⟨[44], [97, 44], 2⟩) ∧
    ((⟨[44], [97, 44], 2⟩ : tokenizer_t) = ⟨[44], [97, 44], 2⟩ ∧
      ∀ n, next_token_nth n ⟨[44], [97, 44], 2⟩ = .ok (none, ⟨[44], [97, 44], 2⟩)) :=
  ⟨by decide, C6_end_of_stream_is_stable ⟨[44], [97, 44], 2⟩ ⟨[44], [97, 44], 2⟩ (by decide)⟩

/-- C8: when the stream index is before the terminator and the byte under it is a
delimiter, `next_token` returns the token of length zero, a string and not the `NULL`
of the end of the stream, and the stream index it leaves is the old one plus one. -/
theorem C8_delimiter_under_the_cursor (tk : tokenizer_t)
    (h : tk.stream_index < tk.stream.length)
    (hd : is_delimiter tk (tk.stream.getD tk.stream_index 0) = true) :
    (∃ tk2, next_token tk = .ok (some [], tk2) ∧
      tk2.stream_index = tk.stream_index + 1) ∧
    (∀ tk2, next_token tk ≠ .ok (none, tk2)) := by
  have hspan : token_span tk (tk.stream.drop tk.stream_index) = 0 := by
    rw [drop_eq_getD_cons h]
    unfold token_span
    rw [List.takeWhile_cons]
    simp only [hd, Bool.not_true, Bool.false_eq_true, if_false, List.length_nil]
  have hlen : 0 < (tk.stream.drop tk.stream_index).length := by
    rw [List.length_drop]; omega
  have hcopy : copied_bytes tk (tk.stream.drop tk.stream_index) = 0 := by
    unfold copied_bytes
    rw [hspan, if_pos hlen]
  have e : next_token tk = .ok (some [], { tk with stream_index := tk.stream_index + 1 }) := by
    rw [next_token_eq tk h, hcopy]
    simp [fits, malloc_usable_size, parse_token_nil, Outcome.bind]
  refine ⟨⟨_, e, rfl⟩, ?_⟩
  intro tk2 h2
  rw [e] at h2
  simp at h2

theorem C8_delimiter_under_the_cursor_witness :
    (2 < ([97, 44, 44, 98] : List Nat).length) ∧
    is_delimiter ⟨[44], [97, 44, 44, 98], 2⟩ (([97, 44, 44, 98] : List Nat).getD 2 0) = true ∧
    next_token ⟨[44], [97, 44, 44, 98], 2⟩ = .ok (some [], ⟨[44], [97, 44, 44, 98], 3⟩) ∧
    ((∃ tk2, next_token ⟨[44], [97, 44, 44, 98], 2⟩ = .ok (some [], tk2) ∧
        tk2.stream_index = 2 + 1) ∧
      (∀ tk2, next_token ⟨[44], [97, 44, 44, 98], 2⟩ ≠ .ok (none, tk2))) :=
  ⟨by decide, by decide, by decide,
    C8_delimiter_under_the_cursor ⟨[44], [97, 44, 44, 98], 2⟩ (by decide) (by decide)⟩

/-- C9 (the code at a stream made of one tab and 18 times `a`, with the delimiter
`,`): `create` returns the tokenizer, for the tab given as a byte and for the tab
given as backslash, `t`; no byte of the stream is a delimiter, and the
first call of `next_token` hands the whole stream to `parse_token`, whose one rebuilt
token of 24 characters is written with its terminator into a block of 24 bytes: the
call does not return the token of the claim. -/
theorem C9_whole_stream_token_does_not_fit :
    create [44] (9 :: List.replicate 18 97) = .ok ⟨[44], 9 :: List.replicate 18 97, 0⟩ ∧
    create [44] (92 :: 116 :: List.replicate 18 97)
      = .ok ⟨[44], 9 :: List.replicate 18 97, 0⟩ ∧
    token_span ⟨[44], 9 :: List.replicate 18 97, 0⟩ (9 :: List.replicate 18 97) = 19 ∧
    (encode (9 :: List.replicate 18 97)).length = 24 ∧
    parse_token (9 :: List.replicate 18 97) = .out_of_bounds ∧
    next_token ⟨[44], 9 :: List.replicate 18 97, 0⟩ = .out_of_bounds := by
  decide

/-- C10 (the code at 24 times `a` followed by one backslash): the body of the loop
cuts the backslash, but `new_result` is asked for with `string_size - 1 = 24` bytes and
receives the 24 characters and their terminator: the terminator of the string that is
returned lies beyond the block.  With 22 times `a` the call returns the string of the
claim. -/
theorem C10_cut_string_does_not_fit :
    fits (24 + 1) (25 - 1) = false ∧
    parse_escape_sequences_body 25 (List.replicate 24 97 ++ [92]) 24 = .out_of_bounds ∧
    parse_escape_sequences (List.replicate 24 97 ++ [92]) = .out_of_bounds ∧
    parse_escape_sequences (List.replicate 22 97 ++ [92]) = .ok (List.replicate 22 97) := by
  decide

/-- C11 (the code at `u` empty, `c` the character `q` and `v` 23 times `a`): `q` is
no marker and `v` has no backslash; the body of the loop asks for `buf` with
`string_size - 1 = 24` bytes and copies the 24 characters `q`, `a`, ... and their
terminator into it, and then into `new_result`, a block of 24 bytes as well: the call
does not return the string of the claim. -/
theorem C11_kept_character_does_not_fit :
    marker_control 113 = none ∧
    parse_escape_sequences_body 25 (92 :: 113 :: List.replicate 23 97) 0 = .out_of_bounds ∧
    parse_escape_sequences ([] ++ 92 :: 113 :: List.replicate 23 97) = .out_of_bounds ∧
    parse_escape_sequences ([] ++ 92 :: 113 :: List.replicate 21 97)
      = .ok ([] ++ 113 :: List.replicate 21 97) := by
  decide

/-- C12 (the code at a tokenizer made by `create`): for the delimiter `,` and the
stream `a,,b`, whose decoded form has length 4, the third call of `next_token` returns
`b` and leaves the stream index at offset 6, which is beyond the bound
`length + 1 = 5` of the claim. -/
theorem C12_cursor_beyond_the_bound :
    create [44] [97, 44, 44, 98] = .ok ⟨[44], [97, 44, 44, 98], 0⟩ ∧
    (∃ tk, next_token_nth 2 ⟨[44], [97, 44, 44, 98], 0⟩ = .ok (some [98], tk) ∧
      tk.stream_index = 6 ∧ tk.stream.length = 4 ∧
      ¬ (tk.stream_index ≤ tk.stream.length + 1)) :=
  ⟨by decide, ⟨[44], [97, 44, 44, 98], 6⟩, by decide, by decide, by decide, by decide⟩

/-- C13 (the code at a call that finds no delimiter): with the delimiter `,`, the
stream `a,b` and the stream index 0, the delimiter is found at offset 1 and the stream
index becomes 2, as the claim says; with the stream index 2 no delimiter is found, the
token `b` is returned and the stream index becomes 5, not the offset 3 of the end of
the stream, so that the call after it does not find the end but reads outside the
stream. -/
theorem C13_cursor_after_the_last_token :
    next_token ⟨[44], [97, 44, 98], 0⟩ = .ok (some [97], ⟨[44], [97, 44, 98], 2⟩) ∧
    next_token ⟨[44], [97, 44, 98], 2⟩ = .ok (some [98], ⟨[44], [97, 44, 98], 5⟩) ∧
    ([97, 44, 98] : List Nat).length = 3 ∧
    next_token ⟨[44], [97, 44, 98], 5⟩ = .out_of_bounds := by
  decide

/-- C14 (the code at the delimiter `,` and the stream of 24 times `a`): the stream has
no backslash, so its buffer is the block `malloc(24)` into which `strcpy` writes the 24
characters and their terminator.  The terminator lies beyond the block, on the size
field of the next one, where the `malloc` of `next_token` writes: the tokenizer that
`create` leaves has a stream that the call of `next_token` changes.  With 23 times `a`
the stream lies inside its block. -/
theorem C14_stream_terminator_outside_its_block :
    fits (24 + 1) 24 = false ∧
    parse_escape_sequences (List.replicate 24 97) = .out_of_bounds ∧
    create [44] (List.replicate 24 97) = .out_of_bounds ∧
    create [44] (List.replicate 23 97) = .ok ⟨[44], List.replicate 23 97, 0⟩ := by
  decide

/-- C15 (the code at the delimiters 24 times `a` and the stream `x`): the decoded
delimiters are written, 24 characters and a terminator, into the block `malloc(24)`;
the terminator lies beyond the block, where the block of the stream begins, so that
`create` does not leave the decoded delimiters in the tokenizer.  With the arguments
exchanged in length (the delimiter `x`, the stream 23 times `a`) it returns the
tokenizer of the claim. -/
theorem C15_delimiters_terminator_outside_its_block :
    parse_escape_sequences (List.replicate 24 97) = .out_of_bounds ∧
    parse_escape_sequences [120] = .ok [120] ∧
    create (List.replicate 24 97) [120] = .out_of_bounds ∧
    create [120] (List.replicate 23 97) = .ok ⟨[120], List.replicate 23 97, 0⟩ := by
  decide

theorem nibble_to_char_of_lt :
    ∀ n < 16, nibble_to_char n = hex_digit n ∧ nibble_to_char n ≠ 42 ∧
      ((48 ≤ nibble_to_char n ∧ nibble_to_char n ≤ 57) ∨
        (97 ≤ nibble_to_char n ∧ nibble_to_char n ≤ 102)) := by
  decide

/-- C16: for every byte `b`, the two values `parse_token` passes to `nibble_to_char`,
`(b >> 4) & 0x0f` and `b & 0x0f`, are below 16; `nibble_to_char` returns for each the
lowercase hex digit of that nibble, a character of `0` to `9` or `a` to `f`, and never
its fallback `*`. -/
theorem C16_nibbles_are_hex_digits (b : Nat) :
    (b >>> 4) &&& 0x0f < 16 ∧ b &&& 0x0f < 16 ∧
    nibble_to_char ((b >>> 4) &&& 0x0f) = hex_digit ((b >>> 4) &&& 0x0f) ∧
    nibble_to_char (b &&& 0x0f) = hex_digit (b &&& 0x0f) ∧
    nibble_to_char ((b >>> 4) &&& 0x0f) ≠ 42 ∧ nibble_to_char (b &&& 0x0f) ≠ 42 ∧
    ((48 ≤ nibble_to_char ((b >>> 4) &&& 0x0f) ∧ nibble_to_char ((b >>> 4) &&& 0x0f) ≤ 57) ∨
      (97 ≤ nibble_to_char ((b >>> 4) &&& 0x0f) ∧
        nibble_to_char ((b >>> 4) &&& 0x0f) ≤ 102)) ∧
    ((48 ≤ nibble_to_char (b &&& 0x0f) ∧ nibble_to_char (b &&& 0x0f) ≤ 57) ∨
      (97 ≤ nibble_to_char (b &&& 0x0f) ∧ nibble_to_char (b &&& 0x0f) ≤ 102)) := by
  have h1 : (b >>> 4) &&& 0x0f < 16 := Nat.and_lt_two_pow (b >>> 4) (by decide : 15 < 2 ^ 4)
  have h2 : b &&& 0x0f < 16 := Nat.and_lt_two_pow b (by decide : 15 < 2 ^ 4)
  obtain ⟨a1, a2, a3⟩ := nibble_to_char_of_lt _ h1
  obtain ⟨b1, b2, b3⟩ := nibble_to_char_of_lt _ h2
  exact ⟨h1, h2, a1, b1, a2, b2, a3, b3⟩

/-- C17 (the code at two backslashes followed by 23 times `a`): for `v` = 23 times `a`
the call on `v` returns `v`, so the claim gives a backslash and 23 times `a`; but the
body of the loop asks for `new_result` with `string_size - 1 = 24` bytes and copies the
whole of `result`, 25 characters and a terminator, into it.  On backslash, backslash,
`n` the call returns backslash, `n`. -/
theorem C17_escaped_backslash_does_not_fit :
    parse_escape_sequences (List.replicate 23 97) = .ok (List.replicate 23 97) ∧
    fits (25 + 1) (25 - 1) = false ∧
    parse_escape_sequences_body 25 (92 :: 92 :: List.replicate 23 97) 0 = .out_of_bounds ∧
    parse_escape_sequences (92 :: 92 :: List.replicate 23 97) = .out_of_bounds ∧
    parse_escape_sequences [92, 92, 110] = .ok [92, 110] := by
  decide

/-- C18 (the code at the token made of one tab and 18 times `a`): the single pass over
it has 24 characters, none of them a control byte, and is its own single pass; but
`parse_token` writes these 24 characters and their terminator into the block
`malloc(19 + 5)` and does not return them. -/
theorem C18_encoded_token_does_not_fit :
    (encode (9 :: List.replicate 18 97)).length = 24 ∧
    count_control_bytes (encode (9 :: List.replicate 18 97)) = 0 ∧
    encode (encode (9 :: List.replicate 18 97)) = encode (9 :: List.replicate 18 97) ∧
    parse_token (encode (9 :: List.replicate 18 97))
      = .ok (encode (9 :: List.replicate 18 97)) ∧
    parse_token_body (9 :: List.replicate 18 97) 0 = .out_of_bounds ∧
    parse_token (9 :: List.replicate 18 97) = .out_of_bounds := by
  decide

/-- C19 (the code at the delimiter `,` and the stream made of one tab, 18 times `a` and
a last `,`): `create` returns the tokenizer, and the call of `next_token` that reaches
the last delimiter hands the 19 bytes before it to `parse_token`, which writes beyond
the block of its rebuilt token: the call does not return, and no call follows it.  On
the stream `a,` the calls return `a` and then `NULL`. -/
theorem C19_token_before_last_delimiter_does_not_fit :
    create [44] (9 :: List.replicate 18 97 ++ [44])
      = .ok ⟨[44], 9 :: List.replicate 18 97 ++ [44], 0⟩ ∧
    copied_bytes ⟨[44], 9 :: List.replicate 18 97 ++ [44], 0⟩
      (9 :: List.replicate 18 97 ++ [44]) = 19 ∧
    next_token ⟨[44], 9 :: List.replicate 18 97 ++ [44], 0⟩ = .out_of_bounds ∧
    next_token_nth 0 ⟨[44], [97, 44], 0⟩ = .ok (some [97], ⟨[44], [97, 44], 2⟩) ∧
    next_token_nth 1 ⟨[44], [97, 44], 0⟩ = .ok (none, ⟨[44], [97, 44], 2⟩) := by
  decide

/-- C20 (the code at the token of four tabs): the token has four control bytes; with
fuel for three evaluations of the loop condition the loop of `parse_token` is still
running, and the fourth run of its body writes beyond the block of the rebuilt token:
the loop does not end after four runs with a result, it is cut inside the fourth. -/
theorem C20_fourth_run_writes_beyond_its_block :
    count_control_bytes [9, 9, 9, 9] = 4 ∧
    parse_token_loop 3 [9, 9, 9, 9] = .out_of_fuel ∧
    parse_token_loop 4 [9, 9, 9, 9] = .out_of_bounds ∧
    parse_token_loop 5 [9, 9, 9, 9] = .out_of_bounds ∧
    parse_token_loop 4 [9, 9, 9] = .ok (encode [9, 9, 9]) := by
  decide

end Tokenizer
